import Mathlib

/-!
Verification of `ugg.cpp` (uniform graph generator).

This file gives a shallow embedding of the generator's data model and
operations and proves the specified properties about them:

* `Edge` / `mkEdge`  — the canonicalising edge constructor (ugg.cpp:21-30);
* `adjust_num_edges` — the "average edges per vertex" reinterpretation in
  `parse_command_line_arguments` (ugg.cpp:240-243);
* `num_edges_to_create` — the per-worker quota in `make_edges` (ugg.cpp:98);
* `worker_step` / `run_workers` — the concurrent sampling loop of
  `make_edges` (ugg.cpp:91-127), modelled as an interleaving of worker
  iterations driven by an explicit schedule, with each worker's
  pseudo-random draws abstracted as a stream indexed by its seed;
* `make_vertices_loop` / `make_vertices` — the vertex-ID expansion loop
  (ugg.cpp:129-142); the C++ `double` expansion factor is modelled as an
  exact rational;
* `sort_edges` / `save_edges_lines` — the canonical sort in `main`
  (ugg.cpp:60-62) and the ID remapping in `save_edges` (ugg.cpp:153-162);
* `parse_command_line_arguments` / `main_run` — argument validation and
  the exit-code behaviour of `main` (ugg.cpp:54-89, 212-268).
-/

/-- An edge; the constructor of the C++ struct canonicalises the endpoints
(ugg.cpp:25), which is captured by `mkEdge` below. -/
structure Edge where
  m_source : ℕ
  m_destination : ℕ
deriving DecidableEq, Repr

/-- `Edge(source, destination)` stores `min` as the source and `max` as the
destination (ugg.cpp:25). -/
def mkEdge (source destination : ℕ) : Edge :=
  ⟨min source destination, max source destination⟩

/-- The 64-bit modulus: `g_num_vertices` and `g_num_edges` are `uint64_t`. -/
def U64 : ℕ := 2 ^ 64

/-- The edge-count adjustment of `parse_command_line_arguments`
(ugg.cpp:240-243): when `num_edges < num_vertices` the code executes
`g_num_edges *= g_num_vertices / 2`, i.e. it multiplies by the *floored
half* of the vertex count, in `uint64_t` arithmetic. -/
def adjust_num_edges (num_vertices num_edges : ℕ) : ℕ :=
  if num_edges < num_vertices then (num_edges * (num_vertices / 2)) % U64
  else num_edges

/-- The per-worker quota computed in `make_edges` (ugg.cpp:98):
`g_num_edges / num_threads + (thread_id < g_num_edges % num_threads)`. -/
def num_edges_to_create (num_edges num_threads thread_id : ℕ) : ℕ :=
  num_edges / num_threads + if thread_id < num_edges % num_threads then 1 else 0

/-- Claim C1, counterexample: with `num_vertices = 5`, `num_edges = 3`
(a configuration with `0 < num_edges < num_vertices`), the code computes
`3 * (5 / 2) = 6`, not `3 * 5 / 2 = 7`: the claimed formula
`num_edges * num_vertices / 2` does not match the code for odd
`num_vertices`. -/
theorem adjust_num_edges_cex :
    0 < 3 ∧ 3 < 5 ∧ adjust_num_edges 5 3 ≠ 3 * 5 / 2 := by
  refine ⟨by decide, by decide, ?_⟩
  decide

/-- Claim C1, amended: for `0 < num_edges < num_vertices` the final target
is `num_edges * (num_vertices / 2)` with the integer division applied to
`num_vertices` first (reduced mod `2^64`); when `num_vertices` is even and
the product fits in 64 bits this coincides with the claimed
`num_edges * num_vertices / 2` (e.g. `num_vertices = 10`, `num_edges = 3`
gives `15`). -/
theorem adjust_num_edges_even (V E : ℕ) (hE : 0 < E) (hEV : E < V)
    (hVeven : V % 2 = 0) (hfit : E * (V / 2) < U64) :
    adjust_num_edges V E = E * V / 2 := by
  unfold adjust_num_edges
  rw [if_pos hEV, Nat.mod_eq_of_lt hfit]
  obtain ⟨m, rfl⟩ : ∃ m, V = 2 * m := ⟨V / 2, by omega⟩
  rw [Nat.mul_div_cancel_left m (by norm_num), show E * (2 * m) = 2 * (E * m) by ring,
    Nat.mul_div_cancel_left (E * m) (by norm_num)]

/-- Witness for `adjust_num_edges_even`: the spec's own scenario
`num_vertices = 10`, `num_edges = 3` yields a target of `15`. -/
theorem adjust_num_edges_even_witness : adjust_num_edges 10 3 = 3 * 10 / 2 :=
  adjust_num_edges_even 10 3 (by decide) (by decide) (by decide)
    (by unfold U64; omega)

/-- The indicator sum `∑ i < W, [i < r]` equals `min r W`. -/
lemma sum_indicator_lt (W r : ℕ) :
    (∑ i ∈ Finset.range W, if i < r then 1 else 0) = min r W := by
  induction W with
  | zero => simp
  | succ W ih =>
      rw [Finset.sum_range_succ, ih]
      by_cases h : W < r
      · rw [if_pos h]
        omega
      · rw [if_neg h]
        omega

/-- Claim C3: the per-worker quotas of `make_edges` (ugg.cpp:98) partition
the target edge count exactly: summed over `thread_id < W` they equal
`num_edges`. -/
theorem quota_partition (E W : ℕ) (hW : 1 ≤ W) (hE : 1 ≤ E) :
    ∑ i ∈ Finset.range W, num_edges_to_create E W i = E := by
  unfold num_edges_to_create
  rw [Finset.sum_add_distrib, Finset.sum_const, Finset.card_range,
    smul_eq_mul, sum_indicator_lt]
  have hmod : E % W < W := Nat.mod_lt _ (by omega)
  have hdiv := Nat.div_add_mod E W
  omega

/-- Witness for `quota_partition`: `E = 7`, `W = 3` gives quotas
`3, 2, 2` summing to `7`. -/
theorem quota_partition_witness :
    ∑ i ∈ Finset.range 3, num_edges_to_create 7 3 i = 7 :=
  quota_partition 7 3 (by decide) (by decide)

/-- The shared state of `make_edges` (ugg.cpp:91-127): the deduplicated
set `edges_created` (kept as an insertion-ordered duplicate-free list),
each worker's `num_edges_created_insofar` counter, and how many draws each
worker has consumed from its pseudo-random stream. -/
structure GenState where
  edges_created : List Edge
  counters : ℕ → ℕ
  positions : ℕ → ℕ

/-- The state before any worker runs. -/
def init_state : GenState := ⟨[], fun _ => 0, fun _ => 0⟩

/-- One iteration of the worker loop body (ugg.cpp:100-107) for thread
`tid`: if the quota is not yet met, draw a pair from the stream seeded
`g_seed + tid` (ugg.cpp:96), form the canonical edge, reject self-loops,
and attempt the deduplicating insert, bumping the local counter exactly
when the edge is newly added.  A worker whose quota is met does nothing
(its loop has exited). -/
def worker_step (stream : ℕ → ℕ → ℕ × ℕ) (g_seed : ℕ) (quota : ℕ → ℕ)
    (tid : ℕ) (s : GenState) : GenState :=
  if s.counters tid < quota tid then
    let p := stream (g_seed + tid) (s.positions tid)
    let e := mkEdge p.1 p.2
    let pos' := Function.update s.positions tid (s.positions tid + 1)
    if e.m_source = e.m_destination then ⟨s.edges_created, s.counters, pos'⟩
    else if e ∈ s.edges_created then ⟨s.edges_created, s.counters, pos'⟩
    else ⟨s.edges_created ++ [e],
          Function.update s.counters tid (s.counters tid + 1), pos'⟩
  else s

/-- Run the workers of `make_edges` under an explicit interleaving: the
schedule lists, in order, which thread executes its next loop iteration.
Any interleaving of the per-thread loops corresponds to some schedule. -/
def run_workers (stream : ℕ → ℕ → ℕ × ℕ) (g_seed : ℕ) (quota : ℕ → ℕ) :
    List ℕ → GenState → GenState
  | [], s => s
  | tid :: rest, s =>
      run_workers stream g_seed quota rest (worker_step stream g_seed quota tid s)

/-- All `W` workers have met their quotas: the join in `make_edges`
(ugg.cpp:115) returns only when every thread's loop has finished. -/
def workers_done (quota : ℕ → ℕ) (W : ℕ) (s : GenState) : Prop :=
  ∀ i < W, s.counters i = quota i

instance (quota : ℕ → ℕ) (W : ℕ) (s : GenState) :
    Decidable (workers_done quota W s) := by
  unfold workers_done
  exact Nat.decidableBallLT _ _

/-- Invariant of the sampling loop: the shared set is duplicate-free, its
edges are canonical self-loop-free pairs over `[0, n)`, its size equals
the sum of the workers' counters, and no counter exceeds its quota. -/
def EdgesInv (n W : ℕ) (quota : ℕ → ℕ) (s : GenState) : Prop :=
  s.edges_created.Nodup ∧
  (∀ e ∈ s.edges_created, e.m_source < e.m_destination ∧ e.m_destination < n) ∧
  s.edges_created.length = (∑ i ∈ Finset.range W, s.counters i) ∧
  (∀ i, s.counters i ≤ quota i)

lemma sum_update_succ (c : ℕ → ℕ) (W tid : ℕ) (ht : tid < W) :
    (∑ i ∈ Finset.range W, Function.update c tid (c tid + 1) i)
      = (∑ i ∈ Finset.range W, c i) + 1 := by
  have hmem : tid ∈ Finset.range W := Finset.mem_range.mpr ht
  rw [Finset.sum_update_of_mem hmem, ← Finset.add_sum_erase _ c hmem,
    Finset.erase_eq]
  omega

lemma edgesInv_init (n W : ℕ) (quota : ℕ → ℕ) : EdgesInv n W quota init_state := by
  refine ⟨List.nodup_nil, by simp [init_state], by simp [init_state], ?_⟩
  intro i
  simp [init_state]

lemma worker_step_inv {n W : ℕ} {quota : ℕ → ℕ}
    (stream : ℕ → ℕ → ℕ × ℕ) (g_seed : ℕ) {tid : ℕ} (ht : tid < W)
    (hs : ∀ sd k, (stream sd k).1 < n ∧ (stream sd k).2 < n)
    {s : GenState} (h : EdgesInv n W quota s) :
    EdgesInv n W quota (worker_step stream g_seed quota tid s) := by
  obtain ⟨hnd, hcan, hlen, hbnd⟩ := h
  unfold worker_step
  by_cases hq : s.counters tid < quota tid
  · rw [if_pos hq]
    set p := stream (g_seed + tid) (s.positions tid) with hp
    by_cases hself : (mkEdge p.1 p.2).m_source = (mkEdge p.1 p.2).m_destination
    · simpa [hself] using ⟨hnd, hcan, hlen, hbnd⟩
    · rw [if_neg hself]
      by_cases hdup : mkEdge p.1 p.2 ∈ s.edges_created
      · simpa [hdup] using ⟨hnd, hcan, hlen, hbnd⟩
      · rw [if_neg hdup]
        refine ⟨?_, ?_, ?_, ?_⟩
        · simpa [List.nodup_append] using ⟨hnd, hdup⟩
        · intro e he
          rcases List.mem_append.mp he with he | he
          · exact hcan e he
          · have he' : e = mkEdge p.1 p.2 := by simpa using he
            subst he'
            have h1 := (hs (g_seed + tid) (s.positions tid)).1
            have h2 := (hs (g_seed + tid) (s.positions tid)).2
            rw [← hp] at h1 h2
            unfold mkEdge at hself ⊢
            simp only at hself ⊢
            rcases Nat.le_total p.1 p.2 with hle | hle
            · rw [min_eq_left hle, max_eq_right hle] at hself ⊢
              omega
            · rw [min_eq_right hle, max_eq_left hle] at hself ⊢
              omega
        · simp only [List.length_append, List.length_singleton]
          rw [sum_update_succ _ _ _ ht]
          omega
        · intro i
          show Function.update s.counters tid (s.counters tid + 1) i ≤ quota i
          by_cases hi : i = tid
          · subst hi
            rw [Function.update_same]
            omega
          · rw [Function.update_noteq hi]
            exact hbnd i
  · rw [if_neg hq]
    exact ⟨hnd, hcan, hlen, hbnd⟩

lemma run_workers_inv {n W : ℕ} {quota : ℕ → ℕ}
    (stream : ℕ → ℕ → ℕ × ℕ) (g_seed : ℕ)
    (hs : ∀ sd k, (stream sd k).1 < n ∧ (stream sd k).2 < n) :
    ∀ (sched : List ℕ) (s : GenState), (∀ t ∈ sched, t < W) →
      EdgesInv n W quota s →
      EdgesInv n W quota (run_workers stream g_seed quota sched s) := by
  intro sched
  induction sched with
  | nil => intro s _ h; exact h
  | cons t rest ih =>
      intro s hts h
      have ht : t < W := hts t (List.mem_cons_self _ _)
      exact ih _ (fun u hu => hts u (List.mem_cons_of_mem _ hu))
        (worker_step_inv stream g_seed ht hs h)

/-- Claim C2: for every valid configuration (`0 < n`,
`0 < E ≤ n*(n-1)/2`), any completed run of `make_edges` (any interleaving
of `W ≥ 1` workers whose draws stay in `[0, n)`, run until every worker
met its quota) returns an edge collection of size exactly `E`, with no
self-loop and each edge canonical (`m_source < m_destination`), and with
no duplicate edge. -/
theorem make_edges_exact (n E W g_seed : ℕ) (stream : ℕ → ℕ → ℕ × ℕ)
    (sched : List ℕ)
    (hn : 0 < n) (hE : 0 < E) (hmax : E ≤ n * (n - 1) / 2) (hW : 1 ≤ W)
    (hs : ∀ sd k, (stream sd k).1 < n ∧ (stream sd k).2 < n)
    (hts : ∀ t ∈ sched, t < W)
    (hdone : workers_done (num_edges_to_create E W) W
      (run_workers stream g_seed (num_edges_to_create E W) sched init_state)) :
    (run_workers stream g_seed (num_edges_to_create E W) sched init_state).edges_created.length = E ∧
    (run_workers stream g_seed (num_edges_to_create E W) sched init_state).edges_created.Nodup ∧
    ∀ e ∈ (run_workers stream g_seed (num_edges_to_create E W) sched init_state).edges_created,
      e.m_source < e.m_destination := by
  have hinv := run_workers_inv stream g_seed hs sched init_state hts
    (edgesInv_init n W (num_edges_to_create E W))
  obtain ⟨hnd, hcan, hlen, _⟩ := hinv
  refine ⟨?_, hnd, fun e he => (hcan e he).1⟩
  rw [hlen]
  have hsum : (∑ i ∈ Finset.range W,
      (run_workers stream g_seed (num_edges_to_create E W) sched init_state).counters i)
      = ∑ i ∈ Finset.range W, num_edges_to_create E W i := by
    refine Finset.sum_congr rfl ?_
    intro i hi
    exact hdone i (Finset.mem_range.mp hi)
  rw [hsum]
  exact quota_partition E W hW hE

/-- Witness for `make_edges_exact`: one worker, `n = 4`, `E = 2`, with a
stream drawing `(0,1)` then `(1,2)`; the schedule `[0, 0]` completes the
quota and yields exactly the two canonical edges. -/
theorem make_edges_exact_witness :
    (run_workers (fun _ k => (k % 4, (k + 1) % 4)) 42 (num_edges_to_create 2 1)
      [0, 0] init_state).edges_created.length = 2 ∧
    (run_workers (fun _ k => (k % 4, (k + 1) % 4)) 42 (num_edges_to_create 2 1)
      [0, 0] init_state).edges_created.Nodup ∧
    ∀ e ∈ (run_workers (fun _ k => (k % 4, (k + 1) % 4)) 42 (num_edges_to_create 2 1)
      [0, 0] init_state).edges_created, e.m_source < e.m_destination :=
  make_edges_exact 4 2 1 42 (fun _ k => (k % 4, (k + 1) % 4)) [0, 0]
    (by decide) (by decide) (by decide) (by decide)
    (fun sd k => ⟨Nat.mod_lt _ (by decide), Nat.mod_lt _ (by decide)⟩)
    (by decide) (by decide)

/-- Streams for the determinism counterexample: the worker seeded `100`
draws `(0,1)` then `(1,2)`; the worker seeded `101` draws `(0,1)` then
`(2,3)`.  All drawn indices lie in `[0, 4)`. -/
def cex_stream : ℕ → ℕ → ℕ × ℕ := fun sd k =>
  if sd = 100 then (if k = 0 then (0, 1) else (1, 2))
  else (if k = 0 then (0, 1) else (2, 3))

/-- Claim C8, counterexample: with the same seed (`100`), the same worker
count (`W = 2`), the same per-worker streams and quotas
(`num_edges_to_create 2 2`, i.e. one edge each for a target of two edges
over `n = 4` vertices), two different thread interleavings both run to
completion yet produce different edge sets: under `[0, 1, 1]` the set is
`{(0,1), (2,3)}`, under `[1, 0, 0]` it is `{(0,1), (1,2)}` — whichever
worker loses the race on the duplicate `(0,1)` resamples, so the result
is not a function of seed and worker count alone. -/
theorem same_seed_different_sets :
    workers_done (num_edges_to_create 2 2) 2
      (run_workers cex_stream 100 (num_edges_to_create 2 2) [0, 1, 1] init_state) ∧
    workers_done (num_edges_to_create 2 2) 2
      (run_workers cex_stream 100 (num_edges_to_create 2 2) [1, 0, 0] init_state) ∧
    (⟨1, 2⟩ : Edge) ∈ (run_workers cex_stream 100 (num_edges_to_create 2 2)
      [1, 0, 0] init_state).edges_created ∧
    (⟨1, 2⟩ : Edge) ∉ (run_workers cex_stream 100 (num_edges_to_create 2 2)
      [0, 1, 1] init_state).edges_created := by
  refine ⟨by decide, by decide, by decide, by decide⟩

/-- Iterating the single worker's loop body. -/
lemma run_workers_single (stream : ℕ → ℕ → ℕ × ℕ) (g_seed : ℕ) (quota : ℕ → ℕ) :
    ∀ (sched : List ℕ) (s : GenState), (∀ t ∈ sched, t < 1) →
      run_workers stream g_seed quota sched s =
        (worker_step stream g_seed quota 0)^[sched.length] s := by
  intro sched
  induction sched with
  | nil => intro s _; rfl
  | cons t rest ih =>
      intro s hts
      have ht : t = 0 := by
        have := hts t (List.mem_cons_self _ _)
        omega
      subst ht
      rw [run_workers, List.length_cons, Function.iterate_succ_apply]
      exact ih _ (fun u hu => hts u (List.mem_cons_of_mem _ hu))

/-- A finished worker's loop body is a no-op. -/
lemma worker_step_of_done (stream : ℕ → ℕ → ℕ × ℕ) (g_seed : ℕ)
    (quota : ℕ → ℕ) (s : GenState) (h : workers_done quota 1 s) :
    worker_step stream g_seed quota 0 s = s := by
  unfold worker_step
  rw [if_neg]
  rw [h 0 (by omega)]
  omega

lemma iterate_of_done (stream : ℕ → ℕ → ℕ × ℕ) (g_seed : ℕ)
    (quota : ℕ → ℕ) (s : GenState) (h : workers_done quota 1 s) :
    ∀ k, (worker_step stream g_seed quota 0)^[k] s = s := by
  intro k
  induction k with
  | zero => rfl
  | succ k ih =>
      rw [Function.iterate_succ_apply, worker_step_of_done _ _ _ _ h, ih]

/-- Claim C8, amended (single-worker part): with one worker the run is a
deterministic function of the seed-derived stream — any two schedules that
both complete the quota yield the same `edges_created` list.  (The seeding
`seed + thread_id` of ugg.cpp:96 is the `stream (g_seed + tid)` argument
of `worker_step`.) -/
theorem make_edges_deterministic_single_worker
    (stream : ℕ → ℕ → ℕ × ℕ) (g_seed : ℕ) (quota : ℕ → ℕ)
    (sched1 sched2 : List ℕ)
    (h1 : ∀ t ∈ sched1, t < 1) (h2 : ∀ t ∈ sched2, t < 1)
    (hd1 : workers_done quota 1 (run_workers stream g_seed quota sched1 init_state))
    (hd2 : workers_done quota 1 (run_workers stream g_seed quota sched2 init_state)) :
    (run_workers stream g_seed quota sched1 init_state).edges_created =
    (run_workers stream g_seed quota sched2 init_state).edges_created := by
  rw [run_workers_single stream g_seed quota sched1 init_state h1] at hd1 ⊢
  rw [run_workers_single stream g_seed quota sched2 init_state h2] at hd2 ⊢
  set f := worker_step stream g_seed quota 0 with hf
  rcases Nat.le_total sched1.length sched2.length with hle | hle
  · obtain ⟨k, hk⟩ := Nat.exists_eq_add_of_le hle
    rw [hk, Nat.add_comm, Function.iterate_add_apply,
      iterate_of_done stream g_seed quota _ hd1 k]
  · obtain ⟨k, hk⟩ := Nat.exists_eq_add_of_le hle
    rw [hk, Nat.add_comm, Function.iterate_add_apply,
      iterate_of_done stream g_seed quota _ hd2 k]

/-- Witness for `make_edges_deterministic_single_worker`: the schedules
`[0, 0]` and `[0, 0, 0]` (the extra step is a no-op after the quota is
met) both complete and agree. -/
theorem make_edges_deterministic_single_worker_witness :
    (run_workers (fun _ k => (k % 4, (k + 1) % 4)) 7 (num_edges_to_create 2 1)
      [0, 0] init_state).edges_created =
    (run_workers (fun _ k => (k % 4, (k + 1) % 4)) 7 (num_edges_to_create 2 1)
      [0, 0, 0] init_state).edges_created :=
  make_edges_deterministic_single_worker (fun _ k => (k % 4, (k + 1) % 4)) 7
    (num_edges_to_create 2 1) [0, 0] [0, 0, 0]
    (by decide) (by decide) (by decide) (by decide)

/-- `ceil(f * k)` as a natural number; the smallest candidate `vertex_id`
accepted by the test `vertex_id >= g_exp_factor_vertex_id * vertices.size()`
(ugg.cpp:135) when the size is `k`. -/
def vid_target (f : ℚ) (k : ℕ) : ℕ := (Int.ceil (f * (k : ℚ))).toNat

/-- The loop of `make_vertices` (ugg.cpp:134-139), with explicit fuel
(one unit per iteration of the C++ `while`): while fewer than `n` IDs have
been emitted, emit `vertex_id + 1` whenever
`vertex_id >= f * vertices.size()`, and always increment `vertex_id`.
The C++ `double` factor is modelled as an exact rational. -/
def make_vertices_loop (f : ℚ) (n : ℕ) : ℕ → List ℕ → ℕ → Option (List ℕ)
  | 0, acc, _ => if n ≤ acc.length then some acc else none
  | fuel + 1, acc, vid =>
      if acc.length < n then
        if f * (acc.length : ℚ) ≤ (vid : ℚ) then
          make_vertices_loop f n fuel (acc ++ [vid + 1]) (vid + 1)
        else
          make_vertices_loop f n fuel acc (vid + 1)
      else some acc

/-- `make_vertices` (ugg.cpp:129-142): the list starts with ID `1` and the
loop runs with `vertex_id` starting at `1`; the fuel
`vid_target f (n-1) + 1` is shown sufficient below. -/
def make_vertices (f : ℚ) (n : ℕ) : Option (List ℕ) :=
  make_vertices_loop f n (vid_target f (n - 1) + 1) [1] 1

/-- The IDs emitted while the size grows from `k` to `k + m`:
`ceil(f*k)+1, ceil(f*(k+1))+1, ...`. -/
def id_suffix (f : ℚ) : ℕ → ℕ → List ℕ
  | _, 0 => []
  | k, m + 1 => (vid_target f k + 1) :: id_suffix f (k + 1) m

/-- Closed form of the whole vertex-ID sequence. -/
def vertexSeq (f : ℚ) (n : ℕ) : List ℕ := id_suffix f 0 n

lemma vid_target_le_iff (f : ℚ) (k vid : ℕ) :
    vid_target f k ≤ vid ↔ f * (k : ℚ) ≤ (vid : ℚ) := by
  unfold vid_target
  rw [Int.toNat_le, Int.ceil_le]
  constructor
  · intro h
    exact_mod_cast h
  · intro h
    exact_mod_cast h

lemma vid_target_succ (f : ℚ) (hf : 1 ≤ f) (k : ℕ) :
    vid_target f k + 1 ≤ vid_target f (k + 1) := by
  unfold vid_target
  have h0 : (0 : ℚ) ≤ f * (k : ℚ) := by positivity
  have hc0 : (0 : ℤ) ≤ Int.ceil (f * (k : ℚ)) := Int.ceil_nonneg h0
  have hstep : f * (k : ℚ) + 1 ≤ f * ((k : ℚ) + 1) := by
    have : f * ((k : ℚ) + 1) = f * (k : ℚ) + f := by ring
    rw [this]
    linarith
  have hle : Int.ceil (f * (k : ℚ)) + 1 ≤ Int.ceil (f * ((k + 1 : ℕ) : ℚ)) := by
    rw [← Int.ceil_add_one]
    apply Int.ceil_le_ceil
    push_cast
    exact hstep
  omega

lemma vid_target_mono (f : ℚ) (hf : 0 ≤ f) {k l : ℕ} (h : k ≤ l) :
    vid_target f k ≤ vid_target f l := by
  unfold vid_target
  have : f * (k : ℚ) ≤ f * (l : ℚ) := by
    apply mul_le_mul_of_nonneg_left _ hf
    exact_mod_cast h
  have := Int.ceil_le_ceil this
  omega

lemma vid_target_zero (f : ℚ) : vid_target f 0 = 0 := by
  unfold vid_target
  simp

lemma vid_target_one (f : ℚ) (hf : 1 ≤ f) : 1 ≤ vid_target f 1 := by
  unfold vid_target
  have h1 : (1 : ℚ) ≤ f * ((1 : ℕ) : ℚ) := by push_cast; linarith
  have : (1 : ℤ) ≤ Int.ceil (f * ((1 : ℕ) : ℚ)) := by
    rw [show (1 : ℤ) = Int.ceil (1 : ℚ) by simp]
    exact Int.ceil_le_ceil h1
  omega

/-- The loop of `make_vertices`, run from any reachable state with enough
fuel, completes and appends exactly the closed-form suffix. -/
lemma make_vertices_loop_complete (f : ℚ) (hf : 1 ≤ f) (n : ℕ) :
    ∀ (fuel : ℕ) (acc : List ℕ) (vid : ℕ),
      acc.length ≤ n →
      (acc.length < n →
        vid ≤ vid_target f acc.length ∧ vid_target f (n - 1) + 1 - vid ≤ fuel) →
      make_vertices_loop f n fuel acc vid =
        some (acc ++ id_suffix f acc.length (n - acc.length)) := by
  have hf0 : (0 : ℚ) ≤ f := by linarith
  intro fuel
  induction fuel with
  | zero =>
      intro acc vid hle h
      by_cases hlt : acc.length < n
      · obtain ⟨hv, hfuel⟩ := h hlt
        have hm : vid_target f acc.length ≤ vid_target f (n - 1) :=
          vid_target_mono f hf0 (by omega)
        omega
      · have heq : acc.length = n := by omega
        rw [make_vertices_loop, if_pos (by omega)]
        rw [heq]
        simp [id_suffix]
  | succ fuel ih =>
      intro acc vid hle h
      by_cases hlt : acc.length < n
      · obtain ⟨hv, hfuel⟩ := h hlt
        rw [make_vertices_loop, if_pos hlt]
        have hmono : vid_target f acc.length ≤ vid_target f (n - 1) :=
          vid_target_mono f hf0 (by omega)
        by_cases hcond : f * (acc.length : ℚ) ≤ (vid : ℚ)
        · rw [if_pos hcond]
          have hvt : vid_target f acc.length ≤ vid :=
            (vid_target_le_iff f acc.length vid).mpr hcond
          have hveq : vid = vid_target f acc.length := by omega
          have hlen' : (acc ++ [vid + 1]).length = acc.length + 1 := by simp
          rw [ih (acc ++ [vid + 1]) (vid + 1)
            (by omega)
            (by
              intro hlt'
              rw [hlen'] at hlt' ⊢
              constructor
              · have := vid_target_succ f hf acc.length
                omega
              · have : vid_target f (acc.length + 1) ≤ vid_target f (n - 1) :=
                  vid_target_mono f hf0 (by omega)
                omega)]
          rw [hlen']
          have hsplit : n - acc.length = (n - (acc.length + 1)) + 1 := by omega
          rw [hsplit, id_suffix, ← hveq]
          simp
        · rw [if_neg hcond]
          have hvt : ¬ vid_target f acc.length ≤ vid := by
            intro hcontra
            exact hcond ((vid_target_le_iff f acc.length vid).mp hcontra)
          rw [ih acc (vid + 1) hle
            (by
              intro _
              constructor
              · omega
              · omega)]
      · have hexit : ¬ acc.length < n := hlt
        rw [make_vertices_loop, if_neg hexit]
        have heq : acc.length = n := by omega
        rw [heq]
        simp [id_suffix]

/-- `make_vertices` terminates with the closed-form sequence. -/
lemma make_vertices_eq (f : ℚ) (hf : 1 ≤ f) (n : ℕ) (hn : 1 ≤ n) :
    make_vertices f n = some (vertexSeq f n) := by
  unfold make_vertices vertexSeq
  rw [make_vertices_loop_complete f hf n _ [1] 1
    (by simpa using hn)
    (by
      intro hlt
      simp only [List.length_singleton] at hlt ⊢
      constructor
      · exact vid_target_one f hf
      · omega)]
  congr 1
  simp only [List.length_singleton]
  obtain ⟨m, rfl⟩ : ∃ m, n = m + 1 := ⟨n - 1, by omega⟩
  rw [show m + 1 - 1 = m by omega]
  rw [id_suffix, vid_target_zero]
  rfl

lemma id_suffix_length (f : ℚ) : ∀ (m k : ℕ), (id_suffix f k m).length = m := by
  intro m
  induction m with
  | zero => intro k; rfl
  | succ m ih =>
      intro k
      rw [id_suffix, List.length_cons, ih]

lemma id_suffix_mem_ge (f : ℚ) (hf : 1 ≤ f) :
    ∀ (m k : ℕ) (x : ℕ), x ∈ id_suffix f k m → vid_target f k + 1 ≤ x := by
  have hf0 : (0 : ℚ) ≤ f := by linarith
  intro m
  induction m with
  | zero => intro k x hx; simp [id_suffix] at hx
  | succ m ih =>
      intro k x hx
      rw [id_suffix] at hx
      rcases List.mem_cons.mp hx with hx | hx
      · omega
      · have h1 := ih (k + 1) x hx
        have h2 := vid_target_mono f hf0 (show k ≤ k + 1 by omega)
        omega

lemma id_suffix_sorted (f : ℚ) (hf : 1 ≤ f) :
    ∀ (m k : ℕ), List.Sorted (· < ·) (id_suffix f k m) := by
  intro m
  induction m with
  | zero => intro k; exact List.sorted_nil
  | succ m ih =>
      intro k
      rw [id_suffix]
      refine List.sorted_cons.mpr ⟨?_, ih (k + 1)⟩
      intro x hx
      have h1 := id_suffix_mem_ge f hf m (k + 1) x hx
      have h2 := vid_target_succ f hf k
      omega

lemma id_suffix_getLast (f : ℚ) :
    ∀ (m k : ℕ), (id_suffix f k (m + 1)).getLast? = some (vid_target f (k + m) + 1) := by
  intro m
  induction m with
  | zero => intro k; rfl
  | succ m ih =>
      intro k
      rw [id_suffix, id_suffix, List.getLast?_cons_cons, ← id_suffix, ih (k + 1)]
      rw [show k + 1 + m = k + (m + 1) by omega]

/-- Claim C4: for `n ≥ 1` and expansion factor `f ≥ 1`, `make_vertices`
returns a sequence of length exactly `n`, strictly increasing, starting at
`1`, whose last element is at most `ceil(f * (n-1)) + 1`. -/
theorem make_vertices_spec (f : ℚ) (n : ℕ) (hn : 1 ≤ n) (hf : 1 ≤ f) :
    ∃ l, make_vertices f n = some l ∧ l.length = n ∧
      List.Sorted (· < ·) l ∧ l.head? = some 1 ∧
      ∃ last, l.getLast? = some last ∧ last ≤ vid_target f (n - 1) + 1 := by
  refine ⟨vertexSeq f n, make_vertices_eq f hf n hn, ?_, ?_, ?_, ?_⟩
  · unfold vertexSeq
    exact id_suffix_length f n 0
  · unfold vertexSeq
    exact id_suffix_sorted f hf n 0
  · unfold vertexSeq
    obtain ⟨m, rfl⟩ : ∃ m, n = m + 1 := ⟨n - 1, by omega⟩
    rw [id_suffix, vid_target_zero]
    rfl
  · unfold vertexSeq
    obtain ⟨m, rfl⟩ : ∃ m, n = m + 1 := ⟨n - 1, by omega⟩
    refine ⟨vid_target f m + 1, ?_, ?_⟩
    · rw [id_suffix_getLast f m 0]
      rw [show 0 + m = m by omega]
    · rw [show m + 1 - 1 = m by omega]

/-- Witness for `make_vertices_spec` at `f = 2`, `n = 3`: the sequence is
`[1, 3, 5]`, of length `3`, strictly increasing, starting at `1`, ending
at `5 ≤ ceil(2*2) + 1 = 5`. -/
theorem make_vertices_spec_witness :
    ∃ l, make_vertices 2 3 = some l ∧ l.length = 3 ∧
      List.Sorted (· < ·) l ∧ l.head? = some 1 ∧
      ∃ last, l.getLast? = some last ∧ last ≤ vid_target 2 (3 - 1) + 1 :=
  make_vertices_spec 2 3 (by norm_num) (by norm_num)

lemma vid_target_one_mul (k : ℕ) : vid_target 1 k = k := by
  unfold vid_target
  rw [one_mul, Int.ceil_natCast]
  omega

lemma id_suffix_one : ∀ (m k : ℕ), id_suffix 1 k m = List.range' (k + 1) m := by
  intro m
  induction m with
  | zero => intro k; rfl
  | succ m ih =>
      intro k
      rw [id_suffix, vid_target_one_mul, ih (k + 1), List.range']

/-- Claim C5: with expansion factor exactly `1`, `make_vertices` returns
the contiguous sequence `1, 2, ..., n`. -/
theorem make_vertices_expansion_one (n : ℕ) (hn : 1 ≤ n) :
    make_vertices 1 n = some (List.range' 1 n) := by
  rw [make_vertices_eq 1 (by norm_num) n hn]
  unfold vertexSeq
  rw [id_suffix_one n 0]

/-- Witness for `make_vertices_expansion_one`: `n = 5` yields
`[1, 2, 3, 4, 5]`. -/
theorem make_vertices_expansion_one_witness :
    1 ≤ 5 ∧ make_vertices 1 5 = some [1, 2, 3, 4, 5] := by
  refine ⟨by norm_num, ?_⟩
  rw [make_vertices_expansion_one 5 (by norm_num)]
  rfl

/-- Claim C10: `make_vertices` terminates for every `n ≥ 1` and
`f ≥ 1` — the loop, given the explicit fuel bound `ceil(f*(n-1)) + 1`
(one unit per iteration), returns a result rather than running out. -/
theorem make_vertices_terminates (f : ℚ) (n : ℕ) (hn : 1 ≤ n) (hf : 1 ≤ f) :
    ∃ l, make_vertices f n = some l :=
  ⟨vertexSeq f n, make_vertices_eq f hf n hn⟩

/-- Witness for `make_vertices_terminates` at `f = 3/2`, `n = 4`. -/
theorem make_vertices_terminates_witness :
    ∃ l, make_vertices (3 / 2) 4 = some l :=
  make_vertices_terminates (3 / 2) 4 (by norm_num) (by norm_num)

/-- Claim C7: in every completed run of `make_edges` over `n` vertices,
every produced edge has both endpoint indices `< n` (the sampling
distribution of ugg.cpp:97 is over `[0, n-1]`), so the assertions of
`save_edges` (ugg.cpp:157-158) hold and `vertices[e.m_source]`,
`vertices[e.m_destination]` are in-bounds accesses into the
`make_vertices` result, whose length is `n`. -/
theorem make_edges_endpoints_in_bounds (n E W g_seed : ℕ) (f : ℚ)
    (stream : ℕ → ℕ → ℕ × ℕ) (sched : List ℕ)
    (hn : 0 < n) (hE : 0 < E) (hmax : E ≤ n * (n - 1) / 2) (hW : 1 ≤ W)
    (hf : 1 ≤ f)
    (hs : ∀ sd k, (stream sd k).1 < n ∧ (stream sd k).2 < n)
    (hts : ∀ t ∈ sched, t < W)
    (hdone : workers_done (num_edges_to_create E W) W
      (run_workers stream g_seed (num_edges_to_create E W) sched init_state)) :
    (∀ e ∈ (run_workers stream g_seed (num_edges_to_create E W) sched init_state).edges_created,
        e.m_source < n ∧ e.m_destination < n) ∧
    ∃ l, make_vertices f n = some l ∧ l.length = n ∧
      ∀ e ∈ (run_workers stream g_seed (num_edges_to_create E W) sched init_state).edges_created,
        e.m_source < l.length ∧ e.m_destination < l.length := by
  have hinv := run_workers_inv stream g_seed hs sched init_state hts
    (edgesInv_init n W (num_edges_to_create E W))
  obtain ⟨_, hcan, _, _⟩ := hinv
  have hbnd : ∀ e ∈ (run_workers stream g_seed (num_edges_to_create E W) sched
      init_state).edges_created, e.m_source < n ∧ e.m_destination < n := by
    intro e he
    have := hcan e he
    omega
  refine ⟨hbnd, vertexSeq f n, make_vertices_eq f hf n (by omega), ?_, ?_⟩
  · unfold vertexSeq
    exact id_suffix_length f n 0
  · intro e he
    have h1 := hbnd e he
    have h2 : (vertexSeq f n).length = n := id_suffix_length f n 0
    omega

/-- Witness for `make_edges_endpoints_in_bounds`: the run of
`make_edges_exact_witness` with `f = 1`; all endpoints are below `4`,
the length of the vertex list. -/
theorem make_edges_endpoints_in_bounds_witness :
    (∀ e ∈ (run_workers (fun _ k => (k % 4, (k + 1) % 4)) 42
        (num_edges_to_create 2 1) [0, 0] init_state).edges_created,
        e.m_source < 4 ∧ e.m_destination < 4) ∧
    ∃ l, make_vertices 1 4 = some l ∧ l.length = 4 ∧
      ∀ e ∈ (run_workers (fun _ k => (k % 4, (k + 1) % 4)) 42
        (num_edges_to_create 2 1) [0, 0] init_state).edges_created,
        e.m_source < l.length ∧ e.m_destination < l.length :=
  make_edges_endpoints_in_bounds 4 2 1 42 1 (fun _ k => (k % 4, (k + 1) % 4))
    [0, 0] (by decide) (by decide) (by decide) (by decide) (by norm_num)
    (fun sd k => ⟨Nat.mod_lt _ (by decide), Nat.mod_lt _ (by decide)⟩)
    (by decide) (by decide)

/-- The strict comparator passed to `std::sort` in `main` (ugg.cpp:60-62):
lexicographic on `(m_source, m_destination)`. -/
def edge_less (e1 e2 : Edge) : Prop :=
  e1.m_source < e2.m_source ∨
    (e1.m_source = e2.m_source ∧ e1.m_destination < e2.m_destination)

instance : DecidableRel edge_less := fun a b => by
  unfold edge_less
  infer_instance

/-- The induced total preorder: `std::sort` with a strict comparator
produces a sequence where no later element is strictly below an earlier
one. -/
def edge_le (e1 e2 : Edge) : Prop := ¬ edge_less e2 e1

instance : DecidableRel edge_le := fun a b => by
  unfold edge_le
  infer_instance

lemma edge_le_iff (a b : Edge) :
    edge_le a b ↔ a.m_source < b.m_source ∨
      (a.m_source = b.m_source ∧ a.m_destination ≤ b.m_destination) := by
  unfold edge_le edge_less
  omega

instance : IsTotal Edge edge_le :=
  ⟨fun a b => by rw [edge_le_iff, edge_le_iff]; omega⟩

instance : IsTrans Edge edge_le :=
  ⟨fun a b c hab hbc => by
    rw [edge_le_iff] at hab hbc ⊢
    omega⟩

/-- The sorting step of `main` (ugg.cpp:60-62), modelled with a sorting
algorithm over the same comparator. -/
def sort_edges (l : List Edge) : List Edge := l.insertionSort edge_le

/-- The `(source_id, destination_id)` pairs written by `save_edges`
(ugg.cpp:156-160), one per edge, remapped through the vertex-ID list. -/
def save_edges_lines (vertices : List ℕ) (edges : List Edge) : List (ℕ × ℕ) :=
  edges.map (fun e => (vertices.getD e.m_source 0, vertices.getD e.m_destination 0))

/-- Ascending lexicographic order on output lines. -/
def pair_lt (p q : ℕ × ℕ) : Prop := p.1 < q.1 ∨ (p.1 = q.1 ∧ p.2 < q.2)

lemma getD_strict_mono (v : List ℕ) (hv : List.Sorted (· < ·) v)
    {i j : ℕ} (hij : i < j) (hj : j < v.length) : v.getD i 0 < v.getD j 0 := by
  have hi : i < v.length := lt_trans hij hj
  rw [List.getD_eq_getElem v 0 hi, List.getD_eq_getElem v 0 hj]
  have h := List.Sorted.get_strictMono hv
    (show (⟨i, hi⟩ : Fin v.length) < ⟨j, hj⟩ from hij)
  simpa [List.get_eq_getElem] using h

/-- Claim C6: for a strictly increasing vertex-ID list and any
duplicate-free edge list with in-bounds endpoints, the lines that
`save_edges` writes for the sorted edges are in strictly ascending
lexicographic order of `(source_id, destination_id)`: the index sort of
ugg.cpp:60-62 is preserved by the strictly increasing index-to-ID
remapping of ugg.cpp:159. -/
theorem save_edges_lines_sorted (vertices : List ℕ) (edges : List Edge)
    (hv : List.Sorted (· < ·) vertices)
    (hb : ∀ e ∈ edges, e.m_source < vertices.length ∧ e.m_destination < vertices.length)
    (hnd : edges.Nodup) :
    List.Pairwise pair_lt (save_edges_lines vertices (sort_edges edges)) := by
  unfold save_edges_lines sort_edges
  rw [List.pairwise_map]
  have hsorted : List.Pairwise edge_le (edges.insertionSort edge_le) :=
    List.sorted_insertionSort edge_le edges
  have hperm : List.Perm (edges.insertionSort edge_le) edges :=
    List.perm_insertionSort edge_le edges
  have hnd' : (edges.insertionSort edge_le).Nodup := hperm.nodup_iff.mpr hnd
  have hne : List.Pairwise (fun a b : Edge => a ≠ b) (edges.insertionSort edge_le) := hnd'
  refine (hsorted.and hne).imp_of_mem ?_
  intro a b ha hbm hab
  obtain ⟨hle, hneq⟩ := hab
  have hamem : a ∈ edges := hperm.mem_iff.mp ha
  have hbmem : b ∈ edges := hperm.mem_iff.mp hbm
  have hba := hb a hamem
  have hbb := hb b hbmem
  unfold pair_lt
  simp only
  rcases (edge_le_iff a b).mp hle with h | ⟨hseq, hdle⟩
  · left
    exact getD_strict_mono vertices hv h hbb.1
  · have hdne : a.m_destination ≠ b.m_destination := by
      intro hde
      apply hneq
      cases a
      cases b
      simp_all
    right
    refine ⟨by rw [hseq], ?_⟩
    exact getD_strict_mono vertices hv (by omega) hbb.2

/-- Witness for `save_edges_lines_sorted`: vertex IDs `[1, 3, 5, 7]` and
edges `(2,3), (0,1), (0,2)` sort to `(0,1), (0,2), (2,3)` and map to the
strictly ascending lines `(1,3), (1,5), (5,7)`. -/
theorem save_edges_lines_sorted_witness :
    List.Pairwise pair_lt (save_edges_lines [1, 3, 5, 7]
      (sort_edges [⟨2, 3⟩, ⟨0, 1⟩, ⟨0, 2⟩])) :=
  save_edges_lines_sorted [1, 3, 5, 7] [⟨2, 3⟩, ⟨0, 1⟩, ⟨0, 2⟩]
    (by decide) (by decide) (by decide)

/-- The parsed command line as seen by `parse_command_line_arguments`
(ugg.cpp:226): for each option, `none` models `count(...) == 0`. -/
structure ParsedArgs where
  help : Bool
  num_vertices : Option ℕ
  num_edges : Option ℕ
  output : Option String
  max_vertex_id : Option ℚ
  seed : Option ℕ

/-- The validated global configuration set by
`parse_command_line_arguments` (ugg.cpp:38-42). -/
structure Config where
  g_num_vertices : ℕ
  g_num_edges : ℕ
  g_output : String
  g_exp_factor_vertex_id : ℚ
  g_seed : ℕ

/-- Outcome of argument parsing: the help path calls
`exit(EXIT_SUCCESS)` (ugg.cpp:230), `ERROR(...)` throws `common::Error`
(caught in `main`), otherwise the globals are set. -/
inductive ParseResult where
  | helpShown : ParseResult
  | ok : Config → ParseResult
  | err : String → ParseResult

/-- `parse_command_line_arguments` (ugg.cpp:212-268): help check, the
mandatory/zero checks on the vertex and edge counts, the average-degree
reinterpretation (via `adjust_num_edges`), the output-path check, the
expansion-factor check, and the seed default. -/
def parse_command_line_arguments (default_seed : ℕ) (args : ParsedArgs) : ParseResult :=
  if args.help then .helpShown
  else match args.num_vertices with
  | none => .err "Missing mandatory argument --num_vertices"
  | some v =>
    if v = 0 then .err "No vertices to generate"
    else match args.num_edges with
    | none => .err "Missing mandatory argument --num_edges"
    | some e0 =>
      if e0 = 0 then .err "No edges to generate"
      else match args.output with
      | none => .err "Missing mandatory argument --output"
      | some o =>
        if o = "" then .err "Missing mandatory argument --output"
        else match args.max_vertex_id with
        | some m =>
          if m < 1 then .err "Expansion factor (max_vertex_id) is less than 1"
          else .ok ⟨v, adjust_num_edges v e0, o, m,
            (args.seed.getD default_seed)⟩
        | none => .ok ⟨v, adjust_num_edges v e0, o, 1,
            (args.seed.getD default_seed)⟩

/-- The exit code and stderr lines of `main` (ugg.cpp:54-89): on a parse
error or a failure of the generation/saving body (abstracted as `io`),
the handler prints the error and a usage hint to stderr and returns `1`;
otherwise the process ends with `0` (also for `--help`). -/
def main_run (default_seed : ℕ) (args : ParsedArgs)
    (io : Config → Except String Unit) : ℕ × List String :=
  match parse_command_line_arguments default_seed args with
  | .helpShown => (0, [])
  | .err msg =>
      (1, [msg, "Type --help to check how to run the program", "Program terminated"])
  | .ok cfg =>
      match io cfg with
      | .ok _ => (0, [])
      | .error msg =>
          (1, [msg, "Type --help to check how to run the program", "Program terminated"])

/-- Claim C9: the process exits with status `0` on success (including the
`--help` path) and with status `1` on any validation or I/O failure, in
which case stderr carries the error message followed by the usage hint. -/
theorem main_exit_codes (default_seed : ℕ) (args : ParsedArgs)
    (io : Config → Except String Unit) :
    ((main_run default_seed args io).1 = 0 ∨ (main_run default_seed args io).1 = 1) ∧
    (args.help = true → main_run default_seed args io = (0, [])) ∧
    (∀ msg, parse_command_line_arguments default_seed args = .err msg →
      main_run default_seed args io =
        (1, [msg, "Type --help to check how to run the program", "Program terminated"])) ∧
    (∀ cfg, parse_command_line_arguments default_seed args = .ok cfg →
      (io cfg = .ok () → main_run default_seed args io = (0, [])) ∧
      (∀ msg, io cfg = .error msg → main_run default_seed args io =
        (1, [msg, "Type --help to check how to run the program", "Program terminated"]))) := by
  have hhelp : args.help = true → parse_command_line_arguments default_seed args = .helpShown := by
    intro h
    unfold parse_command_line_arguments
    rw [if_pos h]
  refine ⟨?_, ?_, ?_, ?_⟩
  · rcases hp : parse_command_line_arguments default_seed args with _ | cfg | msg
    · simp [main_run, hp]
    · rcases hio : io cfg with _ | msg
      · simp [main_run, hp, hio]
      · simp [main_run, hp, hio]
    · simp [main_run, hp]
  · intro h
    simp [main_run, hhelp h]
  · intro msg hmsg
    simp [main_run, hmsg]
  · intro cfg hcfg
    constructor
    · intro hio
      simp [main_run, hcfg, hio]
    · intro msg hio
      simp [main_run, hcfg, hio]

/-- Witness for `main_exit_codes`: with `--help` given, the exit status is
`0` and nothing is printed to stderr. -/
theorem main_exit_codes_witness :
    main_run 7 ⟨true, none, none, none, none, none⟩ (fun _ => Except.ok ()) = (0, []) :=
  (main_exit_codes 7 ⟨true, none, none, none, none, none⟩ (fun _ => Except.ok ())).2.1 rfl
